import Mathlib

/-!
Verification of the `lexo` text/code analysis utility (main.go) against its
natural-language specification.

The Go source is shallowly embedded: an input stream (`io.Reader`) is a list
of characters together with a flag saying whether the stream ends in a read
error instead of EOF; `bufio.Scanner` token splitting is modelled by explicit
recursive tokenizers; Go `int` counters are modelled by `Nat`/`Int` (inputs
are finite in-memory lists, so the counts cannot overflow a 64-bit int);
`map[string]int` is modelled by an association list with distinct keys, and
the nondeterministic map iteration order is accounted for by theorems
quantifying over all permutations of the entry list.
-/

deriving instance DecidableEq for Except

set_option maxRecDepth 8000

namespace Lexo

/-- `isSpace` from `bufio/scan.go`, the rune predicate used by
`bufio.ScanWords` to delimit tokens. -/
def goIsSpace (c : Char) : Bool :=
  if c.toNat <= 0xFF then
    (c = ' ' || c = '\t' || c = '\n' || c = '\u000b' || c = '\u000c' ||
     c = '\r' || c = '\u0085' || c = '\u00a0')
  else if 0x2000 <= c.toNat && c.toNat <= 0x200a then true
  else
    (c.toNat = 0x1680 || c.toNat = 0x2028 || c.toNat = 0x2029 ||
     c.toNat = 0x202f || c.toNat = 0x205f || c.toNat = 0x3000)

/-- Token accumulator for `bufio.ScanWords`: splits the stream into maximal
runs of non-space characters.  `acc` holds the (reversed) characters of the
token currently being scanned. -/
def tokenizeAux : List Char → List Char → List String
  | [], acc => if acc = [] then [] else [String.mk acc.reverse]
  | c :: cs, acc =>
    if goIsSpace c then
      if acc = [] then tokenizeAux cs []
      else String.mk acc.reverse :: tokenizeAux cs []
    else tokenizeAux cs (c :: acc)

/-- The token stream produced by a scanner with split function
`bufio.ScanWords` over the given character data. -/
def tokenize (data : List Char) : List String := tokenizeAux data []

/-- Line accumulator for `bufio.ScanLines`: splits at `'\n'`; a final
unterminated segment is returned as a line, the empty segment after a
trailing `'\n'` is not. -/
def scanLinesAux : List Char → List Char → List (List Char)
  | [], acc => if acc = [] then [] else [acc.reverse]
  | c :: cs, acc =>
    if c = '\n' then acc.reverse :: scanLinesAux cs []
    else scanLinesAux cs (c :: acc)

/-- The lines produced by a scanner with split function `bufio.ScanLines`. -/
def scanLines (data : List Char) : List (List Char) := scanLinesAux data []

/-- An `io.Reader` as consumed by the counting functions: it delivers `data`
and then either EOF (`readErr = false`) or a read error (`readErr = true`).
`bufio.Scanner` returns every token found in the delivered data and only then
reports the error through `scanner.Err()`. -/
structure GoReader where
  data : List Char
  readErr : Bool
  deriving DecidableEq

/-- `countWords` (main.go): scans with `bufio.ScanWords` and returns the
number of tokens.  The function returns a bare `int`; `scanner.Err()` is
never consulted. -/
def countWords (r : GoReader) : Nat := (tokenize r.data).length

/-- `countLines` (main.go): scans with `bufio.ScanLines` and returns the
number of lines.  No error channel. -/
def countLines (r : GoReader) : Nat := (scanLines r.data).length

/-- `countChars` (main.go): scans with `bufio.ScanRunes` and returns the
number of Unicode code points.  No error channel. -/
def countChars (r : GoReader) : Nat := r.data.length

/-- The fixed punctuation cutset `".,;:!?\"'()[]\x7b\x7d"` trimmed from both
ends of every token by `analyzeWordFrequency`. -/
def punctCutset : List Char :=
  ['.', ',', ';', ':', '!', '?', '"', '\x27', '(', ')', '[', ']', '\x7b', '\x7d']

/-- `strings.Trim(word, ".,;:!?\"'()[]\x7b\x7d")`: remove characters of the
cutset from both ends. -/
def goTrimPunct (l : List Char) : List Char :=
  (((l.dropWhile (punctCutset.contains ·)).reverse.dropWhile
      (punctCutset.contains ·))).reverse

/-- The per-token normalization inlined in `analyzeWordFrequency`
(main.go lines 53-56): `strings.ToLower` followed by `strings.Trim` with the
fixed punctuation cutset.  Case mapping is modelled on the ASCII range
(`Char.toLower`), which agrees with `unicode.ToLower` there. -/
def normalizeWord (w : String) : String :=
  String.mk (goTrimPunct (w.toList.map Char.toLower))

/-- `WordFrequency` (main.go): a word and its frequency count. -/
structure WordFrequency where
  word : String
  count : Nat
  deriving DecidableEq

/-- One `wordCounts[word]++` step on the association-list model of the Go
map: increment the entry for `w`, or append a fresh entry with count 1. -/
def bump : List WordFrequency → String → List WordFrequency
  | [], w => [⟨w, 1⟩]
  | e :: rest, w =>
    if e.word = w then ⟨e.word, e.count + 1⟩ :: rest else e :: bump rest w

/-- The `wordCounts` map built by the scan loop of `analyzeWordFrequency`:
tokens are normalized, empty results are skipped, and counts are accumulated
per distinct normalized word. -/
def buildCounts (ws : List String) : List WordFrequency := ws.foldl bump []

/-- The normalized, non-empty token stream counted by
`analyzeWordFrequency`. -/
def normTokens (data : List Char) : List String :=
  ((tokenize data).map normalizeWord).filter (· ≠ "")

/-- The frequency mapping of `analyzeWordFrequency` as an entry list (one
canonical enumeration of the Go map; theorems below treat all permutations). -/
def freqEntries (data : List Char) : List WordFrequency :=
  buildCounts (normTokens data)

/-- The `less` closure passed to `sort.Slice` when `sortByCount` is true
(main.go lines 80-85): count descending, ties broken by word ascending. -/
def lessByCount (a b : WordFrequency) : Bool :=
  if a.count = b.count then decide (a.word < b.word)
  else decide (a.count > b.count)

/-- The `less` closure passed to `sort.Slice` when `sortByCount` is false
(main.go lines 88-90): word ascending. -/
def lessAlpha (a b : WordFrequency) : Bool := decide (a.word < b.word)

/-- The non-strict order established by `sort.Slice` with `lessByCount`:
position `i` before position `j` means `¬ less (l j) (l i)`. -/
def sortLeByCount (a b : WordFrequency) : Prop := lessByCount b a = false

/-- The non-strict order established by `sort.Slice` with `lessAlpha`. -/
def sortLeAlpha (a b : WordFrequency) : Prop := lessAlpha b a = false

instance : DecidableRel sortLeByCount := fun a b =>
  inferInstanceAs (Decidable (lessByCount b a = false))

instance : DecidableRel sortLeAlpha := fun a b =>
  inferInstanceAs (Decidable (lessAlpha b a = false))

/-- The `sort.Slice` call of `analyzeWordFrequency`, modelled by insertion
sort under the non-strict complement of the Go comparator; a sorted
permutation of the input, as `sort.Slice` guarantees. -/
def sortFrequencies (sortByCount : Bool) (l : List WordFrequency) :
    List WordFrequency :=
  if sortByCount then l.insertionSort sortLeByCount
  else l.insertionSort sortLeAlpha

/-- The pure result pipeline of `analyzeWordFrequency` for a stream that
delivered `data`: default the limit, count, sort, truncate
(main.go lines 35-98). -/
def freqReport (data : List Char) (sortByCount : Bool) (limit : Int) :
    List WordFrequency :=
  let limit := if limit ≤ 0 then 10 else limit
  let frequencies := sortFrequencies sortByCount (freqEntries data)
  if 0 < limit ∧ limit < (frequencies.length : Int) then
    frequencies.take limit.toNat
  else frequencies

/-- `analyzeWordFrequency` (main.go): returns the sorted, truncated report,
or the scanner's read error (checked after the scan loop, before sorting). -/
def analyzeWordFrequency (r : GoReader) (sortByCount : Bool) (limit : Int) :
    Except String (List WordFrequency) :=
  if r.readErr then Except.error "read error"
  else Except.ok (freqReport r.data sortByCount limit)

/-- The strict order given by the `sortByCount` comparator itself. -/
def sortLtByCount (a b : WordFrequency) : Prop := lessByCount a b = true

/-- The strict order given by the alphabetical comparator itself. -/
def sortLtAlpha (a b : WordFrequency) : Prop := lessAlpha a b = true

theorem sortLeByCount_iff (a b : WordFrequency) :
    sortLeByCount a b ↔
      b.count < a.count ∨ (a.count = b.count ∧ a.word ≤ b.word) := by
  unfold sortLeByCount lessByCount
  by_cases hc : b.count = a.count
  · simp [hc, not_lt, Nat.lt_irrefl]
  · simp only [if_neg hc, decide_eq_false_iff_not, gt_iff_lt, not_lt]
    constructor
    · intro h
      rcases Nat.lt_or_ge b.count a.count with h' | h'
      · exact Or.inl h'
      · omega
    · rintro (h | ⟨he, _⟩)
      · omega
      · exact absurd he.symm hc

theorem sortLeAlpha_iff (a b : WordFrequency) :
    sortLeAlpha a b ↔ a.word ≤ b.word := by
  simp [sortLeAlpha, lessAlpha, not_lt]

theorem sortLtByCount_iff (a b : WordFrequency) :
    sortLtByCount a b ↔
      (a.count = b.count ∧ a.word < b.word) ∨
      (a.count ≠ b.count ∧ b.count < a.count) := by
  unfold sortLtByCount lessByCount
  by_cases hc : a.count = b.count
  · simp [hc]
  · simp [hc]

theorem sortLtAlpha_iff (a b : WordFrequency) :
    sortLtAlpha a b ↔ a.word < b.word := by
  simp [sortLtAlpha, lessAlpha]

instance : IsTotal WordFrequency sortLeByCount where
  total a b := by
    rw [sortLeByCount_iff, sortLeByCount_iff]
    rcases Nat.lt_trichotomy a.count b.count with h | h | h
    · exact Or.inr (Or.inl h)
    · rcases le_total a.word b.word with hw | hw
      · exact Or.inl (Or.inr ⟨h, hw⟩)
      · exact Or.inr (Or.inr ⟨h.symm, hw⟩)
    · exact Or.inl (Or.inl h)

instance : IsTrans WordFrequency sortLeByCount where
  trans a b c hab hbc := by
    rw [sortLeByCount_iff] at hab hbc ⊢
    rcases hab with h1 | ⟨h1e, h1w⟩ <;> rcases hbc with h2 | ⟨h2e, h2w⟩
    · exact Or.inl (h2.trans h1)
    · exact Or.inl (by omega)
    · exact Or.inl (by omega)
    · exact Or.inr ⟨h1e.trans h2e, h1w.trans h2w⟩

instance : IsTotal WordFrequency sortLeAlpha where
  total a b := by
    rw [sortLeAlpha_iff, sortLeAlpha_iff]
    exact le_total a.word b.word

instance : IsTrans WordFrequency sortLeAlpha where
  trans a b c hab hbc := by
    rw [sortLeAlpha_iff] at hab hbc ⊢
    exact hab.trans hbc

instance : IsAntisymm WordFrequency sortLtByCount where
  antisymm a b hab hba := by
    rw [sortLtByCount_iff] at hab hba
    rcases hab with ⟨_, h1⟩ | ⟨_, h1⟩ <;> rcases hba with ⟨_, h2⟩ | ⟨_, h2⟩
    · exact absurd h2 (lt_asymm h1)
    · omega
    · omega
    · omega

instance : IsAntisymm WordFrequency sortLtAlpha where
  antisymm a b hab hba := by
    rw [sortLtAlpha_iff] at hab hba
    exact absurd hba (lt_asymm hab)

/-- On a list whose words are pairwise distinct (as the entry list of a map
is), the non-strict sortedness established by `sort.Slice` upgrades to strict
sortedness under the comparator itself. -/
theorem pairwise_lt_of_pairwise_le_byCount {l : List WordFrequency}
    (hs : l.Pairwise sortLeByCount)
    (hn : (l.map WordFrequency.word).Nodup) : l.Pairwise sortLtByCount := by
  have hw : l.Pairwise (fun a b => a.word ≠ b.word) :=
    List.pairwise_map.mp hn
  refine (hs.and hw).imp ?_
  rintro a b ⟨hle, hne⟩
  rw [sortLeByCount_iff] at hle
  rw [sortLtByCount_iff]
  rcases hle with h | ⟨he, hw'⟩
  · by_cases hc : a.count = b.count
    · omega
    · exact Or.inr ⟨hc, h⟩
  · exact Or.inl ⟨he, lt_of_le_of_ne hw' hne⟩

/-- Alphabetical analogue of `pairwise_lt_of_pairwise_le_byCount`. -/
theorem pairwise_lt_of_pairwise_le_alpha {l : List WordFrequency}
    (hs : l.Pairwise sortLeAlpha)
    (hn : (l.map WordFrequency.word).Nodup) : l.Pairwise sortLtAlpha := by
  have hw : l.Pairwise (fun a b => a.word ≠ b.word) :=
    List.pairwise_map.mp hn
  refine (hs.and hw).imp ?_
  rintro a b ⟨hle, hne⟩
  rw [sortLeAlpha_iff] at hle
  rw [sortLtAlpha_iff]
  exact lt_of_le_of_ne hle hne

/-- Lookup of a word's count in the association-list model of the map
(`0` when absent, matching Go's zero-value map read). -/
def mapCount : List WordFrequency → String → Nat
  | [], _ => 0
  | e :: rest, w => if e.word = w then e.count else mapCount rest w

theorem bump_map_word (l : List WordFrequency) (w : String) :
    (bump l w).map WordFrequency.word =
      if w ∈ l.map WordFrequency.word then l.map WordFrequency.word
      else l.map WordFrequency.word ++ [w] := by
  induction l with
  | nil => simp [bump]
  | cons e rest ih =>
    by_cases he : e.word = w
    · simp [bump, he]
    · simp only [bump, if_neg he, List.map_cons, ih, List.mem_cons]
      by_cases hr : w ∈ rest.map WordFrequency.word
      · simp [hr]
      · simp [hr, Ne.symm he]

theorem nodup_bump_map_word {l : List WordFrequency} (w : String)
    (hn : (l.map WordFrequency.word).Nodup) :
    ((bump l w).map WordFrequency.word).Nodup := by
  rw [bump_map_word]
  by_cases hw : w ∈ l.map WordFrequency.word
  · simpa [hw]
  · simp [hw, List.nodup_append, hn]

theorem mapCount_bump_self (l : List WordFrequency) (w : String) :
    mapCount (bump l w) w = mapCount l w + 1 := by
  induction l with
  | nil => simp [bump, mapCount]
  | cons e rest ih =>
    by_cases he : e.word = w
    · simp [bump, he, mapCount]
    · simp [bump, he, mapCount, ih]

theorem mapCount_bump_other (l : List WordFrequency) {v w : String}
    (hv : v ≠ w) : mapCount (bump l w) v = mapCount l v := by
  induction l with
  | nil => simp [bump, mapCount, Ne.symm hv]
  | cons e rest ih =>
    by_cases he : e.word = w
    · have h1 : bump (e :: rest) w = ⟨e.word, e.count + 1⟩ :: rest := by
        simp [bump, he]
      have h2 : ¬ e.word = v := by rw [he]; exact Ne.symm hv
      rw [h1]
      simp [mapCount, h2]
    · have h1 : bump (e :: rest) w = e :: bump rest w := by simp [bump, he]
      rw [h1]
      by_cases hev : e.word = v
      · simp [mapCount, hev]
      · simp [mapCount, hev, ih]

theorem mem_bump {l : List WordFrequency} (w : String)
    (hn : (l.map WordFrequency.word).Nodup) (e : WordFrequency) :
    e ∈ bump l w ↔
      ((e.word ≠ w ∧ e ∈ l) ∨ (e.word = w ∧ e.count = mapCount l w + 1)) := by
  induction l with
  | nil =>
    cases e with
    | mk ew ec =>
      simp only [bump, List.mem_singleton, WordFrequency.mk.injEq, mapCount,
        List.not_mem_nil, and_false, false_or, Nat.zero_add]
  | cons e' rest ih =>
    simp only [List.map_cons, List.nodup_cons] at hn
    obtain ⟨hw', hnr⟩ := hn
    have hrest : ∀ x : WordFrequency, x ∈ rest → x.word ≠ e'.word := by
      intro x hx hc
      exact hw' (hc ▸ List.mem_map_of_mem WordFrequency.word hx)
    by_cases he : e'.word = w
    · have hb : bump (e' :: rest) w = ⟨e'.word, e'.count + 1⟩ :: rest := by
        simp [bump, he]
      have hm : mapCount (e' :: rest) w = e'.count := by simp [mapCount, he]
      rw [hb, hm, List.mem_cons]
      constructor
      · rintro (rfl | hr)
        · exact Or.inr ⟨he, rfl⟩
        · exact Or.inl ⟨fun hc => (hrest e hr) (hc.trans he.symm), List.mem_cons_of_mem e' hr⟩
      · rintro (⟨hne, hmem⟩ | ⟨hew, hec⟩)
        · rcases List.mem_cons.mp hmem with rfl | hr
          · exact absurd he hne
          · exact Or.inr hr
        · cases e with
          | mk ew ec =>
            left
            simp only at hew hec
            rw [WordFrequency.mk.injEq]
            exact ⟨hew.trans he.symm, hec⟩
    · have hb : bump (e' :: rest) w = e' :: bump rest w := by simp [bump, he]
      have hm : mapCount (e' :: rest) w = mapCount rest w := by
        simp [mapCount, he]
      rw [hb, hm, List.mem_cons, ih hnr]
      constructor
      · rintro (rfl | (⟨hne, hr⟩ | ⟨hew, hec⟩))
        · exact Or.inl ⟨he, List.mem_cons_self _ _⟩
        · exact Or.inl ⟨hne, List.mem_cons_of_mem _ hr⟩
        · exact Or.inr ⟨hew, hec⟩
      · rintro (⟨hne, hmem⟩ | ⟨hew, hec⟩)
        · rcases List.mem_cons.mp hmem with rfl | hr
          · exact Or.inl rfl
          · exact Or.inr (Or.inl ⟨hne, hr⟩)
        · exact Or.inr (Or.inr ⟨hew, hec⟩)

theorem nodup_foldl_bump (ws : List String) :
    ∀ acc : List WordFrequency, (acc.map WordFrequency.word).Nodup →
      (((ws.foldl bump acc)).map WordFrequency.word).Nodup := by
  induction ws with
  | nil => intro acc h; simpa using h
  | cons w rest ih =>
    intro acc h
    rw [List.foldl_cons]
    exact ih (bump acc w) (nodup_bump_map_word w h)

theorem mem_foldl_bump (ws : List String) :
    ∀ acc : List WordFrequency, (acc.map WordFrequency.word).Nodup →
      ∀ e : WordFrequency, e ∈ ws.foldl bump acc ↔
        ((e.word ∉ ws ∧ e ∈ acc) ∨
         (e.word ∈ ws ∧ e.count = mapCount acc e.word + ws.count e.word)) := by
  induction ws with
  | nil => intro acc _ e; simp
  | cons w rest ih =>
    intro acc hn e
    rw [List.foldl_cons, ih (bump acc w) (nodup_bump_map_word w hn) e]
    by_cases hw : e.word = w
    · have h1 : mapCount (bump acc w) e.word = mapCount acc e.word + 1 := by
        rw [hw]; exact mapCount_bump_self acc w
      have hmc : mapCount acc w = mapCount acc e.word := by rw [hw]
      have h2 : e ∈ bump acc w ↔ e.count = mapCount acc w + 1 := by
        rw [mem_bump w hn e]
        constructor
        · rintro (⟨hne, _⟩ | ⟨_, hc⟩)
          · exact absurd hw hne
          · exact hc
        · intro hc; exact Or.inr ⟨hw, hc⟩
      have hcnt : (w :: rest).count e.word = rest.count e.word + 1 := by
        rw [List.count_cons]; simp [hw]
      have hmem : e.word ∈ w :: rest := by rw [hw]; exact List.mem_cons_self w rest
      constructor
      · rintro (⟨hnr, hb⟩ | ⟨hr, hc⟩)
        · have hc := h2.mp hb
          have hz : rest.count e.word = 0 := List.count_eq_zero.mpr hnr
          exact Or.inr ⟨hmem, by omega⟩
        · rw [h1] at hc
          exact Or.inr ⟨hmem, by omega⟩
      · rintro (⟨hnm, _⟩ | ⟨_, hc⟩)
        · exact absurd hmem hnm
        · rw [hcnt] at hc
          by_cases hr : e.word ∈ rest
          · exact Or.inr ⟨hr, by rw [h1]; omega⟩
          · have hz : rest.count e.word = 0 := List.count_eq_zero.mpr hr
            exact Or.inl ⟨hr, h2.mpr (by omega)⟩
    · have h1 : mapCount (bump acc w) e.word = mapCount acc e.word :=
        mapCount_bump_other acc hw
      have h2 : e ∈ bump acc w ↔ e ∈ acc := by
        rw [mem_bump w hn e]
        constructor
        · rintro (⟨_, h⟩ | ⟨hww, _⟩)
          · exact h
          · exact absurd hww hw
        · intro h; exact Or.inl ⟨hw, h⟩
      have hcnt : (w :: rest).count e.word = rest.count e.word := by
        rw [List.count_cons]; simp [hw, Ne.symm hw]
      have hmem : (e.word ∈ w :: rest) ↔ e.word ∈ rest := by
        simp [List.mem_cons, hw]
      rw [h1, h2, hcnt]
      simp only [hmem]

theorem mem_buildCounts (ws : List String) (e : WordFrequency) :
    e ∈ buildCounts ws ↔ (e.word ∈ ws ∧ e.count = ws.count e.word) := by
  rw [buildCounts, mem_foldl_bump ws [] (by simp) e]
  simp [mapCount]

theorem nodup_buildCounts_map_word (ws : List String) :
    ((buildCounts ws).map WordFrequency.word).Nodup :=
  nodup_foldl_bump ws [] (by simp)

theorem nodup_freqEntries_map_word (data : List Char) :
    ((freqEntries data).map WordFrequency.word).Nodup :=
  nodup_buildCounts_map_word (normTokens data)

theorem sortFrequencies_perm (b : Bool) (l : List WordFrequency) :
    (sortFrequencies b l).Perm l := by
  cases b
  · exact List.perm_insertionSort sortLeAlpha l
  · exact List.perm_insertionSort sortLeByCount l

theorem sortFrequencies_pairwise_byCount (l : List WordFrequency) :
    (sortFrequencies true l).Pairwise sortLeByCount :=
  List.sorted_insertionSort sortLeByCount l

theorem sortFrequencies_pairwise_alpha (l : List WordFrequency) :
    (sortFrequencies false l).Pairwise sortLeAlpha :=
  List.sorted_insertionSort sortLeAlpha l

/-- Determinism of the sorting stage: whatever order the Go runtime happens
to enumerate the `wordCounts` map in, `sort.Slice` with either comparator
produces the same sequence, because the comparator is a strict total order
on entries with pairwise-distinct words. -/
theorem sortFrequencies_eq_of_perm (b : Bool) {l₁ l₂ : List WordFrequency}
    (hp : l₁.Perm l₂) (hn : (l₂.map WordFrequency.word).Nodup) :
    sortFrequencies b l₁ = sortFrequencies b l₂ := by
  have hps : (sortFrequencies b l₁).Perm (sortFrequencies b l₂) :=
    ((sortFrequencies_perm b l₁).trans hp).trans (sortFrequencies_perm b l₂).symm
  have hw₂ : ((sortFrequencies b l₂).map WordFrequency.word).Nodup :=
    (((sortFrequencies_perm b l₂).map WordFrequency.word).nodup_iff).mpr hn
  have hw₁ : ((sortFrequencies b l₁).map WordFrequency.word).Nodup :=
    ((hps.map WordFrequency.word).nodup_iff).mpr hw₂
  cases b
  · exact List.eq_of_perm_of_sorted (r := sortLtAlpha) hps
      (pairwise_lt_of_pairwise_le_alpha (sortFrequencies_pairwise_alpha l₁) hw₁)
      (pairwise_lt_of_pairwise_le_alpha (sortFrequencies_pairwise_alpha l₂) hw₂)
  · exact List.eq_of_perm_of_sorted (r := sortLtByCount) hps
      (pairwise_lt_of_pairwise_le_byCount (sortFrequencies_pairwise_byCount l₁) hw₁)
      (pairwise_lt_of_pairwise_le_byCount (sortFrequencies_pairwise_byCount l₂) hw₂)

/-- The frequency mapping is a function of the token multiset only. -/
theorem buildCounts_perm {ws ws' : List String} (h : ws.Perm ws') :
    (buildCounts ws).Perm (buildCounts ws') := by
  have nd₁ : (buildCounts ws).Nodup :=
    (nodup_buildCounts_map_word ws).of_map WordFrequency.word
  have nd₂ : (buildCounts ws').Nodup :=
    (nodup_buildCounts_map_word ws').of_map WordFrequency.word
  rw [List.perm_ext_iff_of_nodup nd₁ nd₂]
  intro e
  rw [mem_buildCounts, mem_buildCounts, h.mem_iff, h.count_eq]

theorem freqEntries_perm_of_tokens_perm {d₁ d₂ : List Char}
    (h : (tokenize d₁).Perm (tokenize d₂)) :
    (freqEntries d₁).Perm (freqEntries d₂) :=
  buildCounts_perm ((h.map normalizeWord).filter _)

theorem sortLtByCount_imp (a b : WordFrequency) :
    sortLtByCount a b →
      b.count < a.count ∨ (a.count = b.count ∧ a.word < b.word) := by
  rw [sortLtByCount_iff]
  rintro (⟨he, hw⟩ | ⟨_, hc⟩)
  · exact Or.inr ⟨he, hw⟩
  · exact Or.inl hc

theorem sorted_nodup_sortFrequencies (b : Bool) (data : List Char) :
    ((sortFrequencies b (freqEntries data)).map WordFrequency.word).Nodup :=
  (((sortFrequencies_perm b (freqEntries data)).map WordFrequency.word).nodup_iff).mpr
    (nodup_freqEntries_map_word data)

/-- The truncation step of `analyzeWordFrequency` is exactly a positional
`take` of the effective limit. -/
theorem freqReport_eq_take (data : List Char) (b : Bool) (lim : Int) :
    freqReport data b lim =
      (sortFrequencies b (freqEntries data)).take
        (if lim ≤ 0 then 10 else lim).toNat := by
  rw [freqReport]
  set L : Int := if lim ≤ 0 then 10 else lim with hL
  have hLpos : 0 < L := by rw [hL]; split <;> omega
  split
  · rfl
  · rename_i hcond
    have hlen : (sortFrequencies b (freqEntries data)).length ≤ L.toNat := by
      by_contra hlt
      exact hcond ⟨hLpos, by omega⟩
    exact (List.take_of_length_le hlen).symm

/-- C1.  The sort stage is deterministic over every enumeration order of the
frequency map, and the report is strictly ordered: by descending count with
ascending-word tie-break when `sortByCount` is set, and by ascending word
otherwise.  No two distinct orderings of the same mapping are possible. -/
theorem analyzeWordFrequency_order_deterministic (data : List Char) (lim : Int)
    (l : List WordFrequency) (hl : l.Perm (freqEntries data)) :
    (sortFrequencies true l = sortFrequencies true (freqEntries data) ∧
     sortFrequencies false l = sortFrequencies false (freqEntries data)) ∧
    (freqReport data true lim).Pairwise
      (fun a b => b.count < a.count ∨ (a.count = b.count ∧ a.word < b.word)) ∧
    (freqReport data false lim).Pairwise (fun a b => a.word < b.word) := by
  refine ⟨⟨sortFrequencies_eq_of_perm true hl (nodup_freqEntries_map_word data),
          sortFrequencies_eq_of_perm false hl (nodup_freqEntries_map_word data)⟩, ?_, ?_⟩
  · have hs : (sortFrequencies true (freqEntries data)).Pairwise
        (fun a b => b.count < a.count ∨ (a.count = b.count ∧ a.word < b.word)) :=
      (pairwise_lt_of_pairwise_le_byCount
        (sortFrequencies_pairwise_byCount (freqEntries data))
        (sorted_nodup_sortFrequencies true data)).imp
        (fun {a b} h => sortLtByCount_imp a b h)
    rw [freqReport_eq_take]
    exact hs.sublist (List.take_sublist _ _)
  · have hs : (sortFrequencies false (freqEntries data)).Pairwise
        (fun a b => a.word < b.word) :=
      (pairwise_lt_of_pairwise_le_alpha
        (sortFrequencies_pairwise_alpha (freqEntries data))
        (sorted_nodup_sortFrequencies false data)).imp
        (fun {a b} h => (sortLtAlpha_iff a b).mp h)
    rw [freqReport_eq_take]
    exact hs.sublist (List.take_sublist _ _)

theorem analyzeWordFrequency_order_deterministic_witness :
    ([⟨"b", 1⟩, ⟨"a", 2⟩] : List WordFrequency).Perm
      (freqEntries ("a b a".toList)) ∧
    ((sortFrequencies true [⟨"b", 1⟩, ⟨"a", 2⟩] =
        sortFrequencies true (freqEntries ("a b a".toList)) ∧
      sortFrequencies false [⟨"b", 1⟩, ⟨"a", 2⟩] =
        sortFrequencies false (freqEntries ("a b a".toList))) ∧
     (freqReport ("a b a".toList) true 0).Pairwise
       (fun a b => b.count < a.count ∨ (a.count = b.count ∧ a.word < b.word)) ∧
     (freqReport ("a b a".toList) false 0).Pairwise
       (fun a b => a.word < b.word)) :=
  ⟨by decide,
   analyzeWordFrequency_order_deterministic ("a b a".toList) 0 _ (by decide)⟩

/-- C2.  A non-positive limit is replaced by the default 10; the report is
the positional truncation of the fully sorted sequence and never exceeds the
effective limit, even when counts tie at the truncation boundary. -/
theorem analyzeWordFrequency_limit (data : List Char) (b : Bool) (lim : Int) :
    analyzeWordFrequency ⟨data, false⟩ b lim =
      Except.ok ((sortFrequencies b (freqEntries data)).take
        (if lim ≤ 0 then 10 else lim).toNat) ∧
    (freqReport data b lim).length ≤ (if lim ≤ 0 then 10 else lim).toNat ∧
    (lim ≤ 0 → freqReport data b lim = freqReport data b 10) := by
  refine ⟨?_, ?_, ?_⟩
  · rw [analyzeWordFrequency, if_neg (by simp), freqReport_eq_take]
  · rw [freqReport_eq_take]; exact List.length_take_le _ _
  · intro hlim
    rw [freqReport_eq_take, freqReport_eq_take, if_pos hlim]
    simp

theorem analyzeWordFrequency_limit_witness :
    (-5 : Int) ≤ 0 ∧
    freqReport ("x y x".toList) true (-5) = freqReport ("x y x".toList) true 10 :=
  ⟨by decide, (analyzeWordFrequency_limit ("x y x".toList) true (-5)).2.2 (by decide)⟩

/-- C3.  Every counted entry is a non-empty normalized token (lower-cased,
punctuation-trimmed) whose count is the number of tokens normalizing to it,
every non-empty normalized token is counted, and the tokens `"The"`, `"the"`,
`"the."` all contribute to the single entry `("the", 3)`. -/
theorem analyzeWordFrequency_normalization (data : List Char) :
    (∀ e ∈ freqEntries data,
      e.word ≠ "" ∧ e.count = (normTokens data).count e.word) ∧
    (∀ w : String, w ∈ normTokens data →
      (⟨w, (normTokens data).count w⟩ : WordFrequency) ∈ freqEntries data) ∧
    normalizeWord "The" = "the" ∧ normalizeWord "the." = "the" ∧
    freqEntries ("The the the.".toList) = [⟨"the", 3⟩] ∧
    analyzeWordFrequency ⟨"The the the.".toList, false⟩ true 10 =
      Except.ok [⟨"the", 3⟩] := by
  refine ⟨?_, ?_, by decide, by decide, by decide, by decide⟩
  · intro e he
    rw [freqEntries, mem_buildCounts] at he
    refine ⟨?_, he.2⟩
    have := List.of_mem_filter he.1
    simpa using this
  · intro w hw
    rw [freqEntries, mem_buildCounts]
    exact ⟨hw, rfl⟩

theorem analyzeWordFrequency_normalization_witness :
    (⟨"ab", 2⟩ : WordFrequency) ∈ freqEntries ("Ab ab.".toList) ∧
    ((⟨"ab", 2⟩ : WordFrequency).word ≠ "" ∧
     (⟨"ab", 2⟩ : WordFrequency).count =
       (normTokens ("Ab ab.".toList)).count (⟨"ab", 2⟩ : WordFrequency).word) :=
  ⟨by decide,
   (analyzeWordFrequency_normalization ("Ab ab.".toList)).1 _ (by decide)⟩

/-- C4.  Rearranging the whitespace-delimited tokens of the input (same
token multiset) leaves the frequency report unchanged, for both sort modes
and every limit. -/
theorem analyzeWordFrequency_order_independent (d₁ d₂ : List Char)
    (h : (tokenize d₁).Perm (tokenize d₂)) (b : Bool) (lim : Int) :
    analyzeWordFrequency ⟨d₁, false⟩ b lim =
      analyzeWordFrequency ⟨d₂, false⟩ b lim := by
  have he : sortFrequencies b (freqEntries d₁) =
      sortFrequencies b (freqEntries d₂) :=
    sortFrequencies_eq_of_perm b (freqEntries_perm_of_tokens_perm h)
      (nodup_freqEntries_map_word d₂)
  rw [analyzeWordFrequency, analyzeWordFrequency, freqReport, freqReport, he]

theorem analyzeWordFrequency_order_independent_witness :
    (tokenize ("b a a".toList)).Perm (tokenize ("a b a".toList)) ∧
    analyzeWordFrequency ⟨"b a a".toList, false⟩ true 3 =
      analyzeWordFrequency ⟨"a b a".toList, false⟩ true 3 :=
  ⟨by decide,
   analyzeWordFrequency_order_independent ("b a a".toList) ("a b a".toList)
     (by decide) true 3⟩

/-- The space-joined sample of at most 1000 raw (non-normalized) tokens that
`detectLanguage` builds for the identification delegate
(main.go lines 134-147). -/
def languageSample (data : List Char) : String :=
  " ".intercalate ((tokenize data).take 1000)

/-- The fixed regional-variant presentation switch applied by
`detectLanguage` to the delegate result (main.go lines 170-194): an empty
tag falls back to undetermined, and four base tags are rewritten to fixed
regional variants. -/
def presentLanguage (langTag langName : String) : String × String :=
  if langTag = "" then ("und", "Unknown")
  else if langTag = "en" then ("en-US", "English (US)")
  else if langTag = "es" then ("es-ES", "Spanish (Spain)")
  else if langTag = "pt" then ("pt-BR", "Portuguese (Brazil)")
  else if langTag = "zh" then ("zh-CN", "Chinese (Simplified)")
  else (langTag, langName)

/-- The error-free body of `detectLanguage` over delivered data, with the
external `whatlanggo.Detect` capability abstracted as `f`, returning the
pair (ISO-639-1 tag, display name).  Zero sampled tokens short-circuit to
`("und", "Unknown")` without consulting `f`. -/
def detectLangPure (f : String → String × String) (data : List Char) :
    String × String :=
  let toks := (tokenize data).take 1000
  if toks.length = 0 then ("und", "Unknown")
  else
    let res := f (languageSample data)
    presentLanguage res.1 res.2

/-- `detectLanguage` (main.go): builds the bounded sample, checks
`scanner.Err()`, and applies the presentation switch.  The scanner error is
observed exactly when the sampling loop ran to the end of the stream (at
most 1000 tokens); for longer failing streams the moment the error surfaces
depends on chunked buffering, which no claim depends on, and the model takes
the sample-limit path. -/
def detectLanguage (f : String → String × String) (r : GoReader) :
    Except String (String × String) :=
  if r.readErr ∧ (tokenize r.data).length ≤ 1000 then
    Except.error "error reading text"
  else Except.ok (detectLangPure f r.data)

/-- The fields of the Go `Config` consulted by the modelled counting and
language paths. -/
structure Config where
  line : Bool
  char : Bool
  word : Bool
  showLanguageName : Bool
  deriving DecidableEq

/-- `processReaderForLanguage` (main.go): tees the reader into `buf`, runs
`detectLanguage` on the tee, then runs the (at most one) requested count
over `&buf` -- i.e. over exactly the `consumed` characters the sampling
pass pulled through the tee.  The original reader is never read again. -/
def processReaderForLanguage (f : String → String × String) (cfg : Config)
    (input : List Char) (consumed : Nat) :
    Except String (String × Option Nat) :=
  match detectLanguage f ⟨input, false⟩ with
  | Except.error e => Except.error ("failed to detect language: " ++ e)
  | Except.ok langRes =>
    let buffered := input.take consumed
    let cnt : Option Nat :=
      if cfg.line then some (countLines ⟨buffered, false⟩)
      else if cfg.char then some (countChars ⟨buffered, false⟩)
      else if cfg.word then some (countWords ⟨buffered, false⟩)
      else none
    Except.ok ((if cfg.showLanguageName then langRes.2 else langRes.1), cnt)

/-- The prefixes of the stream that the sampling scanner may have consumed
by the time `detectLanguage` returns: with at most 1000 tokens the loop runs
to EOF and consumes the whole stream; otherwise `scanner.Scan()` is called a
1001st time, so the consumed prefix contains the first 1001 complete tokens
but, because the scanner reads in bounded chunks, not necessarily the whole
stream. -/
def scanConsumed (input : List Char) (consumed : Nat) : Prop :=
  if (tokenize input).length ≤ 1000 then consumed = input.length
  else consumed ≤ input.length ∧
    1001 ≤ (tokenize (input.take consumed)).length ∧
    (tokenize (input.take consumed)).take 1001 = (tokenize input).take 1001

instance (input : List Char) (consumed : Nat) :
    Decidable (scanConsumed input consumed) := by
  unfold scanConsumed
  infer_instance

/-- The count selection switch of `Run` for stdin when not all three of
line/word/char are set (main.go lines 675-683): first match wins, in the
order line, char, word; the count stays 0 when no flag matches. -/
def runStdinSingleCount (cfg : Config) (inputData : List Char) : Nat :=
  if cfg.line then countLines ⟨inputData, false⟩
  else if cfg.char then countChars ⟨inputData, false⟩
  else if cfg.word then countWords ⟨inputData, false⟩
  else 0

/-- The identical switch in `processFileForCounting`
(main.go lines 796-808), over the file contents. -/
def processFileSingleCount (cfg : Config) (fileContents : List Char) : Nat :=
  if cfg.line then countLines ⟨fileContents, false⟩
  else if cfg.char then countChars ⟨fileContents, false⟩
  else if cfg.word then countWords ⟨fileContents, false⟩
  else 0

/-- Spec-side selector: the single count chosen by the fixed precedence
lines over chars over words, `none` when no counting modifier is set. -/
def precedenceCount (cfg : Config) (d : List Char) : Option Nat :=
  if cfg.line then some (countLines ⟨d, false⟩)
  else if cfg.char then some (countChars ⟨d, false⟩)
  else if cfg.word then some (countWords ⟨d, false⟩)
  else none

/-- C10.  When several counting modifiers are set, exactly one count is
computed and printed, selected by the fixed precedence lines > chars >
words; the language-mode switch, the stdin single-count switch and the
per-file single-count switch all implement this same selector. -/
theorem count_precedence (f : String → String × String) (cfg : Config)
    (input : List Char) (consumed : Nat) (d : List Char) :
    ((processReaderForLanguage f cfg input consumed).map Prod.snd =
       Except.ok (precedenceCount cfg (input.take consumed))) ∧
    runStdinSingleCount cfg d = (precedenceCount cfg d).getD 0 ∧
    processFileSingleCount cfg d = (precedenceCount cfg d).getD 0 ∧
    (cfg.line = true → precedenceCount cfg d = some (countLines ⟨d, false⟩)) ∧
    (cfg.line = false → cfg.char = true →
      precedenceCount cfg d = some (countChars ⟨d, false⟩)) ∧
    (cfg.line = false → cfg.char = false → cfg.word = true →
      precedenceCount cfg d = some (countWords ⟨d, false⟩)) ∧
    ((precedenceCount cfg d).isSome ↔ (cfg.line || cfg.char || cfg.word) = true) := by
  obtain ⟨l, c, w, s⟩ := cfg
  cases l <;> cases c <;> cases w <;>
    simp [processReaderForLanguage, detectLanguage, runStdinSingleCount,
      processFileSingleCount, precedenceCount, Except.map]

theorem count_precedence_witness :
    (Config.mk true false true false).line = true ∧
    precedenceCount (Config.mk true false true false) ("a b".toList) =
      some (countLines ⟨"a b".toList, false⟩) :=
  ⟨rfl, (count_precedence (fun _ => ("en", "English"))
    (Config.mk true false true false) [] 0 ("a b".toList)).2.2.2.1 rfl⟩

/-- C7.  When the sampling loop produces no tokens (in particular on empty
input), `detectLanguage` answers `("und", "Unknown")` uniformly in the
identification delegate -- the delegate is never consulted. -/
theorem detectLanguage_empty (f : String → String × String) (data : List Char)
    (h : tokenize data = []) :
    detectLanguage f ⟨data, false⟩ = Except.ok ("und", "Unknown") := by
  simp [detectLanguage, detectLangPure, h]

theorem detectLanguage_empty_witness :
    tokenize ([] : List Char) = [] ∧
    detectLanguage (fun _ => ("xx", "Xxish")) ⟨[], false⟩ =
      Except.ok ("und", "Unknown") :=
  ⟨by decide, detectLanguage_empty (fun _ => ("xx", "Xxish")) [] (by decide)⟩

/-- C8.  For a non-empty stream, a delegate verdict with base tag `en` is
always presented as `en-US` / `English (US)` whatever display name the
delegate proposed, and an empty tag from the delegate is presented as
`("und", "Unknown")`. -/
theorem detectLanguage_en_presentation (f : String → String × String)
    (data : List Char) (hne : tokenize data ≠ []) :
    ((f (languageSample data)).1 = "en" →
      detectLanguage f ⟨data, false⟩ = Except.ok ("en-US", "English (US)")) ∧
    ((f (languageSample data)).1 = "" →
      detectLanguage f ⟨data, false⟩ = Except.ok ("und", "Unknown")) := by
  have htk : (tokenize data).take 1000 ≠ [] := by
    rw [Ne, List.take_eq_nil_iff]
    simp [hne]
  have hlen : ¬ ((tokenize data).take 1000).length = 0 := by
    simpa [List.length_eq_zero] using htk
  constructor
  · intro h
    simp [detectLanguage, detectLangPure, hlen, h, presentLanguage, hne]
  · intro h
    simp [detectLanguage, detectLangPure, hlen, h, presentLanguage, hne]

theorem detectLanguage_en_presentation_witness :
    tokenize ("good day".toList) ≠ [] ∧
    ((fun _ => ("en", "English (Australia)") : String → String × String)
        (languageSample ("good day".toList))).1 = "en" ∧
    detectLanguage (fun _ => ("en", "English (Australia)"))
        ⟨"good day".toList, false⟩ = Except.ok ("en-US", "English (US)") :=
  ⟨by decide, rfl,
   (detectLanguage_en_presentation (fun _ => ("en", "English (Australia)"))
     ("good day".toList) (by decide)).1 rfl⟩

/-- C6 counterexample: on a source that fails mid-stream after delivering
`"ab cd"`, `countWords` returns the partial count 2, indistinguishable from
the same data ending in EOF; no error is surfaced and the partial count is
not discarded.  Likewise for `countLines` and `countChars`. -/
theorem counting_error_counterexample :
    countWords ⟨"ab cd".toList, true⟩ = 2 ∧
    countWords ⟨"ab cd".toList, true⟩ = countWords ⟨"ab cd".toList, false⟩ ∧
    countLines ⟨"a\nb".toList, true⟩ = 2 ∧
    countChars ⟨"abc".toList, true⟩ = 3 := by
  decide

/-- C6 amended: the counting functions return the partial count over the
data delivered before the failure, with no error indication; by contrast
`analyzeWordFrequency` (always) and `detectLanguage` (whenever its sampling
loop reaches the failure) check `scanner.Err()` and propagate the error
instead of returning a result. -/
theorem counting_error_amended (data : List Char) (b : Bool) (lim : Int)
    (f : String → String × String) :
    countWords ⟨data, true⟩ = countWords ⟨data, false⟩ ∧
    countLines ⟨data, true⟩ = countLines ⟨data, false⟩ ∧
    countChars ⟨data, true⟩ = countChars ⟨data, false⟩ ∧
    analyzeWordFrequency ⟨data, true⟩ b lim = Except.error "read error" ∧
    ((tokenize data).length ≤ 1000 →
      detectLanguage f ⟨data, true⟩ = Except.error "error reading text") := by
  refine ⟨rfl, rfl, rfl, by simp [analyzeWordFrequency], ?_⟩
  intro h
  simp [detectLanguage, h]

theorem counting_error_amended_witness :
    (tokenize ("a".toList)).length ≤ 1000 ∧
    detectLanguage (fun _ => ("en", "English")) ⟨"a".toList, true⟩ =
      Except.error "error reading text" :=
  ⟨by decide,
   (counting_error_amended ("a".toList) true 0
     (fun _ => ("en", "English"))).2.2.2.2 (by decide)⟩

/-- `n` repetitions of the two characters `"a "`: a stream of `n` one-letter
tokens each terminated by a space. -/
def repAS : Nat → List Char
  | 0 => []
  | n + 1 => 'a' :: ' ' :: repAS n

theorem length_repAS (n : Nat) : (repAS n).length = 2 * n := by
  induction n with
  | zero => rfl
  | succ n ih =>
    simp only [repAS, List.length_cons, ih]
    omega

theorem tokenizeAux_repAS (n : Nat) (l : List Char) :
    tokenizeAux (repAS n ++ l) [] = List.replicate n "a" ++ tokenizeAux l [] := by
  induction n with
  | zero => simp [repAS]
  | succ n ih =>
    have ha : goIsSpace 'a' = false := by decide
    have hs : goIsSpace ' ' = true := by decide
    have hstr : String.mk ['a'] = "a" := by decide
    simp [repAS, tokenizeAux, ha, hs, ih, hstr, List.replicate_succ]

/-- A stream of 1002 one-letter tokens, each of the first 1001 terminated by
a space: 2003 characters in all. -/
def c5input : List Char := repAS 1001 ++ ['a']

theorem tokenize_c5input :
    tokenize c5input = List.replicate 1001 "a" ++ ["a"] := by
  rw [c5input, tokenize, tokenizeAux_repAS]
  congr 1

theorem take_c5input : c5input.take 2002 = repAS 1001 := by
  rw [c5input]
  exact List.take_left' (by rw [length_repAS])

/-- C5 is violated by the code.  `c5input` has 1002 tokens; a sampling pass
that consumed the 2002 characters holding the first 1001 complete tokens is
a legitimate scanner behaviour (`scanConsumed`), yet the counting pass then
sees only the tee buffer and prints `Count: 1001`, while the whole input
holds 1002 words.  The original source is never read again after sampling. -/
theorem language_count_short_read :
    scanConsumed c5input 2002 ∧
    processReaderForLanguage (fun _ => ("en", "English"))
        (Config.mk false false true false) c5input 2002 =
      Except.ok ("en-US", some 1001) ∧
    countWords ⟨c5input, false⟩ = 1002 := by
  have htok : tokenize c5input = List.replicate 1001 "a" ++ ["a"] :=
    tokenize_c5input
  have hlen : (tokenize c5input).length = 1002 := by
    rw [htok]; simp
  have htake : c5input.take 2002 = repAS 1001 := take_c5input
  have htok2 : tokenize (repAS 1001) = List.replicate 1001 "a" := by
    have := tokenizeAux_repAS 1001 []
    simpa [tokenize] using this
  have hclen : c5input.length = 2003 := by
    rw [c5input]
    simp [length_repAS]
  refine ⟨?_, ?_, ?_⟩
  · rw [scanConsumed, if_neg (by omega)]
    refine ⟨by omega, ?_, ?_⟩
    · rw [htake, htok2]; simp
    · rw [htake, htok2, htok,
        List.take_append_of_le_length (by simp)]
  · rw [processReaderForLanguage]
    have hne : ¬ ((tokenize c5input).take 1000).length = 0 := by
      simp [hlen]
    rw [detectLanguage]
    simp only [Bool.false_eq_true, false_and, if_false]
    rw [detectLangPure]
    simp only [hne, if_neg, if_false]
    simp [presentLanguage, htake, countWords, htok2]
  · rw [countWords, hlen]


/-- `LanguageSummary` (earlier scc-based revision of main.go, kept in the
repository): one per-language record of `scc --format=json` output. -/
structure LanguageSummary where
  name : String
  code : Int
  comment : Int
  blank : Int
  complexity : Int
  count : Int
  weightedComplex : Int

/-- `CodeStats` (main.go): aggregate line statistics. -/
structure CodeStats where
  total : Nat
  code : Nat
  comments : Nat
  blank : Nat
  files : Nat
  deriving DecidableEq

/-- Field-wise accumulation of one walk result into the running totals. -/
def CodeStats.add (s t : CodeStats) : CodeStats :=
  ⟨s.total + t.total, s.code + t.code, s.comments + t.comments,
   s.blank + t.blank, s.files + t.files⟩

/-- The zero-valued `CodeStats{}` literal. -/
def CodeStats.zero : CodeStats := ⟨0, 0, 0, 0, 0⟩

/-- The `stats.X += fileStats.X; stats.Files++` block applied after
processing one recognized file. -/
def addFileStats (stats fileStats : CodeStats) : CodeStats :=
  ⟨stats.total + fileStats.total, stats.code + fileStats.code,
   stats.comments + fileStats.comments, stats.blank + fileStats.blank,
   stats.files + 1⟩

/-- A file-system node as seen by the LOC walk; file contents are the lines
the scanner would produce. -/
inductive FsNode where
  | file (lines : List (List Char))
  | dir (entries : List (String × FsNode))

/-- Environment of LOC mode: resolution of the top-level path arguments,
plus the observable state of the external scc delegate (whether the
executable is on PATH, whether it exits zero, and its parsed JSON output). -/
structure LocEnv where
  stat : String → Option FsNode
  sccInstalled : Bool
  sccRunOk : Bool
  sccOutput : Option (List LanguageSummary)

/-- The `skipDirs` set of main.go's `countLinesOfCode`. -/
def skipDirs : List String :=
  [".git", ".hg", ".svn", "node_modules", ".idea", ".vscode", "target",
   "build", "dist", "bin", "obj"]

/-- The `codeExtensions` set of main.go's `countLinesOfCode`. -/
def codeExtensions : List String :=
  [".go", ".java", ".js", ".ts", ".jsx", ".tsx", ".py", ".c", ".cpp", ".h",
   ".hpp", ".cs", ".rb", ".php", ".scala", ".rs", ".swift", ".sh", ".bat",
   ".ps1", ".html", ".css", ".scss", ".sql", ".kt", ".kts", ".ex", ".exs",
   ".md"]

/-- `strings.ToLower(path[strings.LastIndexByte(path, '.')+1:])`: the
lower-cased run after the last dot, or the whole lower-cased path when it
has no dot (`LastIndexByte` returns -1). -/
def extOf (path : String) : String :=
  String.mk (((path.toList.reverse.takeWhile (· ≠ '.')).reverse).map Char.toLower)

/-- `strings.TrimSpace`, over the same whitespace predicate as the
tokenizer (`unicode.IsSpace` agrees with it on every character occurring
here). -/
def goTrimSpace (l : List Char) : List Char :=
  ((l.dropWhile goIsSpace).reverse.dropWhile goIsSpace).reverse

/-- `strings.Contains`. -/
def goContains (l pat : List Char) : Bool :=
  l.tails.any (fun t => pat.isPrefixOf t)

/-- One iteration of `processFile`'s scan loop (main.go lines 374-431):
classify a line as blank, comment or code according to the extension's
comment syntax, threading the multi-line-comment state. -/
def processFileLine (ext : String) (st : CodeStats × Bool) (line : List Char) :
    CodeStats × Bool :=
  let stats := st.1
  let isMultilineComment := st.2
  let stats : CodeStats := { stats with total := stats.total + 1 }
  let trimmedLine := goTrimSpace line
  if trimmedLine = [] then
    ({ stats with blank := stats.blank + 1 }, isMultilineComment)
  else if ext ∈ (["go", "c", "cpp", "java", "js", "ts", "cs", "swift", "kt"] :
      List String) then
    if isMultilineComment then
      ({ stats with comments := stats.comments + 1 },
       if goContains line ['*', '/'] then false else true)
    else if (['/', '/'] : List Char).isPrefixOf trimmedLine then
      ({ stats with comments := stats.comments + 1 }, isMultilineComment)
    else if (['/', '*'] : List Char).isPrefixOf trimmedLine then
      ({ stats with comments := stats.comments + 1 },
       if goContains line ['*', '/'] then false else true)
    else ({ stats with code := stats.code + 1 }, isMultilineComment)
  else if ext ∈ (["py", "rb"] : List String) then
    if (['#'] : List Char).isPrefixOf trimmedLine then
      ({ stats with comments := stats.comments + 1 }, isMultilineComment)
    else ({ stats with code := stats.code + 1 }, isMultilineComment)
  else if ext ∈ (["sh", "bash"] : List String) then
    if (['#'] : List Char).isPrefixOf trimmedLine then
      ({ stats with comments := stats.comments + 1 }, isMultilineComment)
    else ({ stats with code := stats.code + 1 }, isMultilineComment)
  else ({ stats with code := stats.code + 1 }, isMultilineComment)

/-- `processFile` (main.go): classify every line of one file. -/
def processFile (filePath : String) (lines : List (List Char)) : CodeStats :=
  (lines.foldl (processFileLine (extOf filePath)) (CodeStats.zero, false)).1

/-- `processDirectory` (main.go): recursive walk skipping hidden entries and
the `skipDirs` set, accumulating `processFile` results for files with a
recognized code extension. -/
def processDirectory (dirPath : String) :
    List (String × FsNode) → CodeStats
  | [] => CodeStats.zero
  | (entryName, node) :: rest =>
    let restStats := processDirectory dirPath rest
    if (['.'] : List Char).isPrefixOf entryName.toList then restStats
    else
      match node with
      | FsNode.dir sub =>
        if entryName ∈ skipDirs then restStats
        else CodeStats.add
          (processDirectory (dirPath ++ "/" ++ entryName) sub) restStats
      | FsNode.file lines =>
        if ("." ++ extOf entryName) ∈ codeExtensions then
          addFileStats restStats (processFile (dirPath ++ "/" ++ entryName) lines)
        else restStats

/-- The per-path loop of main.go's `countLinesOfCode`: stat each path,
walk directories, include single files by the extension check. -/
def countLinesOfCodeAux (env : LocEnv) :
    List String → CodeStats → Except String CodeStats
  | [], stats => Except.ok stats
  | path :: rest, stats =>
    match env.stat path with
    | none => Except.error ("failed to get file info for " ++ path)
    | some (FsNode.dir entries) =>
      countLinesOfCodeAux env rest
        (CodeStats.add stats (processDirectory path entries))
    | some (FsNode.file lines) =>
      let fileStats := processFile path lines
      let ext := extOf path
      if ("." ++ ext) ∈ codeExtensions ∨ ext.length = 0 ∨ ext = path then
        countLinesOfCodeAux env rest (addFileStats stats fileStats)
      else countLinesOfCodeAux env rest stats

/-- `countLinesOfCode` (main.go, current revision): counts lines of code
in-process, "without external dependencies", and prints `stats.Code`.  Note
that no field of the scc delegate state is ever consulted. -/
def countLinesOfCode (env : LocEnv) (paths : List String) :
    Except String Nat :=
  let paths := if paths = [] then ["."] else paths
  match countLinesOfCodeAux env paths CodeStats.zero with
  | Except.error e => Except.error e
  | Except.ok stats => Except.ok stats.code

/-- `countLinesOfCode` of the scc-based revision kept in the repository
(and still demanded by main_test.go and the README): check that the `scc`
executable exists, run it, parse its JSON, and print the sum of the
per-language `Code` fields. -/
def countLinesOfCodeScc (env : LocEnv) (paths : List String) :
    Except String Int :=
  if env.sccInstalled = false then
    Except.error
      "scc is not installed. Please install it with \x27go install github.com/boyter/scc@latest\x27"
  else if env.sccRunOk = false then
    Except.error "failed to run scc"
  else
    match env.sccOutput with
    | none => Except.error "failed to parse scc output"
    | some summaries =>
      Except.ok ((summaries.map LanguageSummary.code).sum)

/-- The demonstration file system: the working directory holds one Go file
with a single line of code. -/
def demoFs : String → Option FsNode := fun p =>
  if p = "." then
    some (FsNode.dir [("a.go", FsNode.file [['p', 'k', 'g']])])
  else none

/-- C9 (against the current main.go, which its own tests and README
contradict): line-of-code counting is computed in-process; the result is
identical whether or not the scc delegate is installed and no
"delegate not installed" error can arise.  The scc-based revision kept in
the repository (the behaviour main_test.go still asserts) does delegate,
and distinguishes the missing-executable error from the non-zero-exit and
unparsable-output errors, merely summing the per-language code counts on
success. -/
theorem loc_not_delegated :
    (∀ (b₁ b₂ : Bool) (out : Option (List LanguageSummary)),
      countLinesOfCode ⟨demoFs, b₁, b₂, out⟩ ["."] = Except.ok 1) ∧
    countLinesOfCodeScc ⟨demoFs, false, true, none⟩ ["."] =
      Except.error
        "scc is not installed. Please install it with \x27go install github.com/boyter/scc@latest\x27" ∧
    countLinesOfCodeScc ⟨demoFs, true, false, none⟩ ["."] =
      Except.error "failed to run scc" ∧
    countLinesOfCodeScc ⟨demoFs, true, true, none⟩ ["."] =
      Except.error "failed to parse scc output" ∧
    (∀ out : List LanguageSummary,
      countLinesOfCodeScc ⟨demoFs, true, true, some out⟩ ["."] =
        Except.ok ((out.map LanguageSummary.code).sum)) ∧
    ("scc is not installed. Please install it with \x27go install github.com/boyter/scc@latest\x27"
        ≠ "failed to run scc" ∧
     "scc is not installed. Please install it with \x27go install github.com/boyter/scc@latest\x27"
        ≠ "failed to parse scc output" ∧
     "failed to run scc" ≠ "failed to parse scc output") := by
  refine ⟨fun b₁ b₂ out => ?_, rfl, rfl, rfl, fun out => rfl, by decide, by decide,
    by decide⟩
  have hext : "." ++ extOf "a.go" ∈ codeExtensions := by decide
  have hdir : processDirectory "."
      [("a.go", FsNode.file [['p', 'k', 'g']])] =
      addFileStats CodeStats.zero
        (processFile ("." ++ "/" ++ "a.go") [['p', 'k', 'g']]) := by
    simp [processDirectory, hext]
  simp [countLinesOfCode, countLinesOfCodeAux, demoFs, hdir]
  decide

end Lexo
